import Mathlib

/-!
Verification development for `pyamg/aggregation/smooth.py` (prolongation
smoothers for smoothed-aggregation algebraic multigrid).

The Python source is shallowly embedded over exact rationals:

* a scipy sparse matrix is modelled by a dense value matrix
  `Matrix (Fin n) (Fin m) ℚ` together with its structural support
  (`supp : Fin n → Finset (Fin m)`, the stored column indices of each row);
  an entry outside the support is an implicit zero;
* a BSR block matrix is modelled with row index `Fin Nnodes × Fin RowsPerBlock`
  and column index `Fin Mnodes × Fin ColsPerBlock` (node id, position inside
  the dense block);
* Python float literals `1e-10`, `1e-8`, `1.0` become the exact rationals;
* `scipy.linalg.svd` is an external numerical routine and is modelled by an
  oracle parameter returning the triple `(U, Sigma, VT)`; theorems carry the
  relevant part of its contract (singular values sorted descending and
  nonnegative, or the exact pseudoinverse identities of the assembled local
  gram inverses) as hypotheses;
* in-place mutation of `Sparsity_Pattern.data` inside the two
  `Satisfy_Constraints` routines is modelled by explicit state passing in the
  `..._inplace` variants;
* the helpers imported from `pyamg.utils` / `pyamg.sa` (`scale_rows`,
  `approximate_spectral_radius`, `BSR_Get_Colindices`,
  `sa_smoothed_prolongator`) are not under `src/`; they are modelled from the
  specification's description of them, or passed as opaque parameters.
-/

/-- A scipy sparse matrix (CSR view): stored structure plus values.
`supp i` is the set of stored column indices of row `i`, `val` the dense view
of the entries. -/
structure SparseM (n m : ℕ) where
  supp : Fin n → Finset (Fin m)
  val : Matrix (Fin n) (Fin m) ℚ

/-- Consistency of a sparse matrix: entries vanish outside the stored
structure. -/
abbrev SparseM.Consistent {n m : ℕ} (A : SparseM n m) : Prop :=
  ∀ i j, j ∉ A.supp i → A.val i j = 0

/-- Number of stored entries, scipy's `.nnz`. -/
def SparseM.nnz {n m : ℕ} (A : SparseM n m) : ℕ :=
  ∑ i, (A.supp i).card

/-- `M.multiply(Sparsity_Pattern)` where the pattern carries unit stored
values: mask `M` to the structural support `s` (smooth.py lines 384, 423,
450). -/
def maskTo {n m : ℕ} (s : Fin n → Finset (Fin m)) (M : Matrix (Fin n) (Fin m) ℚ) :
    Matrix (Fin n) (Fin m) ℚ :=
  Matrix.of fun i j => if j ∈ s i then M i j else 0

/-- Frobenius inner product `(X.multiply(Y)).sum()` (smooth.py lines 411, 430,
457, 460). -/
def innerF {n m : ℕ} (X Y : Matrix (Fin n) (Fin m) ℚ) : ℚ :=
  ∑ i, ∑ j, X i j * Y i j

/-- Binary maximum on ℚ, written out so that it evaluates by kernel
reduction; `pymax_eq_max` below identifies it with `max`. -/
def pymax (a b : ℚ) : ℚ := if a ≤ b then b else a

/-- `max(R.data.flatten().__abs__())` (smooth.py lines 395, 439, 471): the
largest absolute value among the stored entries of `R`, whose structure is the
sparsity pattern `s`; folded from `0`, which agrees with the Python `max` as
soon as the structure is nonempty because every `|entry|` is nonnegative. -/
def residOf {n m : ℕ} (s : Fin n → Finset (Fin m)) (R : Matrix (Fin n) (Fin m) ℚ) : ℚ :=
  (((List.finRange n) ×ˢ (List.finRange m)).filter
      (fun p : Fin n × Fin m => decide (p.2 ∈ s p.1))).foldr
    (fun p acc => pymax |R p.1 p.2| acc) 0

/-- Local Gram matrix `Bi.T * Bi` where `Bi = B[colindx, :]` is the
near-nullspace matrix restricted to the rows in the support set `s`
(smooth.py lines 307-309 and 348-350). -/
def rowGram {κ : Type} [Fintype κ] {k : ℕ} (s : Finset κ) (B : Matrix κ (Fin k) ℚ) :
    Matrix (Fin k) (Fin k) ℚ :=
  Matrix.of fun l1 l2 => ∑ j ∈ s, B j l1 * B j l2

/-- The row-wise projection updates written into the scratch pattern by the
`Satisfy_Constraints` loops: for a row index `i` with support `supp i`, column
`j ∈ supp i` receives the corresponding component of
`(Bi*(BtBinv[i]*UBi.T)).T` where `UB = U*B` (smooth.py lines 80-91 for CSR —
one scalar row per row index — and lines 129-146 for BSR, where the rows of a
node share the node's support and gram inverse).  Stored positions of rows
with empty support do not exist, and positions outside the pattern hold no
value: both are the zero entries of this dense view. -/
def scratchOf {ρ κ : Type} [Fintype ρ] [Fintype κ] [DecidableEq κ] {k : ℕ}
    (supp : ρ → Finset κ) (B : Matrix κ (Fin k) ℚ)
    (X : ρ → Matrix (Fin k) (Fin k) ℚ) (U : Matrix ρ κ ℚ) : Matrix ρ κ ℚ :=
  Matrix.of fun i j =>
    if j ∈ supp i then ∑ l1, B j l1 * (∑ l2, X i l1 l2 * (U * B) i l2) else 0

/-- Common core of the two `Satisfy_Constraints` routines: write the row-wise
projection updates into the unit-valued scratch pattern, then subtract,
`U = U - Sparsity_Pattern` (smooth.py lines 93-96 and 148-151). -/
def satisfyCore {ρ κ : Type} [Fintype ρ] [Fintype κ] [DecidableEq κ] {k : ℕ}
    (supp : ρ → Finset κ) (B : Matrix κ (Fin k) ℚ)
    (X : ρ → Matrix (Fin k) (Fin k) ℚ) (U : Matrix ρ κ ℚ) : Matrix ρ κ ℚ :=
  U - scratchOf supp B X U

/-- smooth.py lines 59-98, `Satisfy_Constraints_CSR(U, Sparsity_Pattern, B,
BtBinv)`: project the components of `span(B)` out of every row of `U`,
confined to the pattern's structural support `SP`.  The pattern's stored
values (used as scratch and reset to 1.0) are modelled separately by
`Satisfy_Constraints_CSR_inplace`. -/
def Satisfy_Constraints_CSR {n m k : ℕ} (U : Matrix (Fin n) (Fin m) ℚ)
    (SP : Fin n → Finset (Fin m)) (B : Matrix (Fin m) (Fin k) ℚ)
    (BtBinv : Fin n → Matrix (Fin k) (Fin k) ℚ) : Matrix (Fin n) (Fin m) ℚ :=
  satisfyCore SP B BtBinv U

/-- Modelled from the spec: `BSR_Get_Colindices` (a `pyamg.utils` helper whose
source is not under `src/`) returns, per node, the scalar column indices of
all dofs in the node's stored blocks, each block assumed perfectly dense — so
the scalar columns of node `i` are the stored block columns paired with every
in-block column position. -/
def colindicesOf {mm c : ℕ} (nodeSupp : Finset (Fin mm)) : Finset (Fin mm × Fin c) :=
  nodeSupp ×ˢ Finset.univ

/-- smooth.py lines 101-153, `Satisfy_Constraints_BSR(U, Sparsity_Pattern, B,
BtBinv, colindices)`: the node-wise variant.  Rows are indexed by
`(node, row-in-block)`, scalar columns by `(block column, col-in-block)`;
all `RowsPerBlock` rows of node `i` use the node's column indices
`colindices[i]` (built from the pattern by `BSR_Get_Colindices`, here
`colindicesOf (nodeSupp i)`) and the node's gram inverse `BtBinv[i]`. -/
def Satisfy_Constraints_BSR {nn r mm c k : ℕ}
    (U : Matrix (Fin nn × Fin r) (Fin mm × Fin c) ℚ)
    (nodeSupp : Fin nn → Finset (Fin mm)) (B : Matrix (Fin mm × Fin c) (Fin k) ℚ)
    (BtBinv : Fin nn → Matrix (Fin k) (Fin k) ℚ) :
    Matrix (Fin nn × Fin r) (Fin mm × Fin c) ℚ :=
  satisfyCore (fun p => colindicesOf (nodeSupp p.1)) B (fun p => BtBinv p.1) U

/-- State-passing model of `Satisfy_Constraints_CSR` making the mutation of
`Sparsity_Pattern.data` explicit: `data` holds the pattern's stored values on
entry; the loop overwrites the stored row slices of rows with nonempty
support (line 91), the result is `U - Sparsity_Pattern` (line 96), and the
stored values are reset to 1.0 before returning (line 97).  `U` itself is
only read; the routine returns a fresh matrix. -/
def Satisfy_Constraints_CSR_inplace {n m k : ℕ} (U : Matrix (Fin n) (Fin m) ℚ)
    (SP : Fin n → Finset (Fin m)) (data : Matrix (Fin n) (Fin m) ℚ)
    (B : Matrix (Fin m) (Fin k) ℚ) (BtBinv : Fin n → Matrix (Fin k) (Fin k) ℚ) :
    Matrix (Fin n) (Fin m) ℚ × Matrix (Fin n) (Fin m) ℚ :=
  let data1 : Matrix (Fin n) (Fin m) ℚ := Matrix.of fun i j =>
    if j ∈ SP i then ∑ l1, B j l1 * (∑ l2, BtBinv i l1 l2 * (U * B) i l2) else data i j
  let U1 := U - Matrix.of fun i j => if j ∈ SP i then data1 i j else 0
  let data2 : Matrix (Fin n) (Fin m) ℚ := Matrix.of fun _ _ => 1
  (U1, data2)

/-- State-passing model of `Satisfy_Constraints_BSR`, as in
`Satisfy_Constraints_CSR_inplace`: node-wise writes (lines 143-144), subtract
(line 151), reset `data[:,:,:] = 1.0` (line 152). -/
def Satisfy_Constraints_BSR_inplace {nn r mm c k : ℕ}
    (U : Matrix (Fin nn × Fin r) (Fin mm × Fin c) ℚ)
    (nodeSupp : Fin nn → Finset (Fin mm))
    (data : Matrix (Fin nn × Fin r) (Fin mm × Fin c) ℚ)
    (B : Matrix (Fin mm × Fin c) (Fin k) ℚ)
    (BtBinv : Fin nn → Matrix (Fin k) (Fin k) ℚ) :
    Matrix (Fin nn × Fin r) (Fin mm × Fin c) ℚ × Matrix (Fin nn × Fin r) (Fin mm × Fin c) ℚ :=
  let data1 : Matrix (Fin nn × Fin r) (Fin mm × Fin c) ℚ := Matrix.of fun p q =>
    if q ∈ colindicesOf (nodeSupp p.1) then
      ∑ l1, B q l1 * (∑ l2, BtBinv p.1 l1 l2 * (U * B) p l2)
    else data p q
  let U1 := U - Matrix.of fun p q => if q ∈ colindicesOf (nodeSupp p.1) then data1 p q else 0
  let data2 : Matrix (Fin nn × Fin r) (Fin mm × Fin c) ℚ := Matrix.of fun _ _ => 1
  (U1, data2)

/-- The index `NullDim - 1` used by `Sigma[NullDim-1]` (smooth.py lines 321,
362). -/
def lastIdx (k : ℕ) [NeZero k] : Fin k :=
  ⟨k - 1, Nat.sub_lt (Nat.pos_of_ne_zero (NeZero.ne k)) Nat.one_pos⟩

/-- smooth.py line 318,
`Sigma = (Sigma/Sigma[0]).__abs__().__gt__(1e-8)*Sigma`: an entry of the
singular value array survives iff the absolute value of its ratio to
`Sigma[0]` exceeds `1e-8`, else it is zeroed. -/
def filteredSigma {k : ℕ} [NeZero k] (Sg : Fin k → ℚ) : Fin k → ℚ :=
  fun l => if 1e-8 < |Sg l / Sg 0| then Sg l else 0

/-- smooth.py lines 309-332 (identically lines 350-373): given the SVD
`U, Sigma, VT = svd(Bi.T*Bi)`, filter `Sigma` and assemble
`BtBinv[i] = mat(VT.T)*mat(Sigma.reshape(..)*U.T)`:

* line 312: if `abs(Sigma[0]) < 1e-10` the whole array is zeroed, and the
  assembled product is then the zero matrix;
* line 318: an entry survives iff `abs(Sigma[l]/Sigma[0]) > 1e-8`;
* lines 321-326: if the last entry `Sigma[NullDim-1]` was zeroed, `Sigma`,
  `U`, `VT` are truncated to the surviving index list `indys` before
  inversion; the assembled product is then summed over surviving indices only;
* line 329: otherwise every entry of the filtered array is inverted in place
  and the full product is assembled.  (At a zero entry ℚ yields `1/0 = 0`
  where numpy would produce `inf`; with scipy's singular values — sorted
  descending, nonnegative — any zeroed entry forces `Sigma[NullDim-1] = 0`,
  so that branch is never taken with a zero present.) -/
def assembleBtBinv {k : ℕ} [NeZero k]
    (svdout : Matrix (Fin k) (Fin k) ℚ × (Fin k → ℚ) × Matrix (Fin k) (Fin k) ℚ) :
    Matrix (Fin k) (Fin k) ℚ :=
  let U := svdout.1
  let Sg := svdout.2.1
  let VT := svdout.2.2
  if |Sg 0| < 1e-10 then 0
  else
    if filteredSigma Sg (lastIdx k) = 0 then
      Matrix.of fun a b =>
        ∑ l ∈ Finset.univ.filter (fun l => filteredSigma Sg l ≠ 0),
          VT l a * (1 / filteredSigma Sg l) * U b l
    else
      Matrix.of fun a b => ∑ l, VT l a * (1 / filteredSigma Sg l) * U b l

/-- smooth.py lines 295-373: the Local Gram Inverse Table.  Every entry is
preallocated as the `NullDim × NullDim` zero matrix; entries of rows (CSR) or
nodes (BSR) with nonempty support are overwritten with the assembled
pseudoinverse of the local Gram matrix; rows/nodes with empty support keep
the zero matrix.  `svd` is the external `scipy.linalg.svd` oracle. -/
def build_BtBinv {ι κ : Type} [Fintype ι] [Fintype κ] [DecidableEq κ] {k : ℕ} [NeZero k]
    (svd : Matrix (Fin k) (Fin k) ℚ →
      Matrix (Fin k) (Fin k) ℚ × (Fin k → ℚ) × Matrix (Fin k) (Fin k) ℚ)
    (supp : ι → Finset κ) (B : Matrix κ (Fin k) ℚ) : ι → Matrix (Fin k) (Fin k) ℚ :=
  fun i => if supp i = ∅ then 0 else assembleBtBinv (svd (rowGram (supp i) B))

/-- The truncation rule exactly as the specification claim words it (written
from the spec text, to be compared with the source-derived
`assembleBtBinv`): if the largest singular value is below the absolute
threshold `1e-10` the whole pseudoinverse is the zero matrix; otherwise the
singular values whose ratio to the largest is not above `1e-8` are zeroed,
the singular vectors corresponding to zeroed singular values are dropped
before inversion, and the surviving singular values are inverted. -/
def truncatedPinvSpec {k : ℕ} [NeZero k] (U : Matrix (Fin k) (Fin k) ℚ)
    (Sg : Fin k → ℚ) (VT : Matrix (Fin k) (Fin k) ℚ) : Matrix (Fin k) (Fin k) ℚ :=
  if |Sg 0| < 1e-10 then 0
  else
    Matrix.of fun a b =>
      ∑ l ∈ Finset.univ.filter (fun l => 1e-8 < |Sg l / Sg 0|),
        VT l a * (1 / Sg l) * U b l

/-- Modelled from the spec: `pyamg.utils.scale_rows(S, v, copy=True)` (an
imported helper whose source is not under `src/`) returns `S` with row `i`
scaled by `v i`. -/
def scale_rows {n m : ℕ} (S : Matrix (Fin n) (Fin m) ℚ) (v : Fin n → ℚ) :
    Matrix (Fin n) (Fin m) ℚ :=
  Matrix.of fun i j => v i * S i j

/-- `D = S.diagonal(); D_inv = 1.0/D; D_inv[D == 0] = 0` (smooth.py lines
32-34). -/
def jacobiDinv {n : ℕ} (S : Matrix (Fin n) (Fin n) ℚ) : Fin n → ℚ :=
  fun i => if S i i = 0 then 0 else 1 / S i i

/-- smooth.py lines 10-41, `jacobi_prolongation_smoother(S, T, omega)`:
`P = T - (omega/rho) * (Dinv*S) * T`.  `approxSpectralRadius` models the
external collaborator `pyamg.utils.approximate_spectral_radius`, which is
applied to `D_inv_S` (line 37). -/
def jacobi_prolongation_smoother {n m : ℕ} (S : Matrix (Fin n) (Fin n) ℚ)
    (T : Matrix (Fin n) (Fin m) ℚ) (omega : ℚ)
    (approxSpectralRadius : Matrix (Fin n) (Fin n) ℚ → ℚ) :
    Matrix (Fin n) (Fin m) ℚ :=
  let D_inv_S := scale_rows S (jacobiDinv S)
  let D_inv_S1 := (omega / approxSpectralRadius D_inv_S) • D_inv_S
  T - D_inv_S1 * T

/-- smooth.py lines 200-213, the argument validation at the top of
`energy_prolongation_smoother`, performed before any computation.  Python's
dynamic typing is modelled by boolean descriptors: `num_iters_isInt` is
`isinstance(num_iters, int)`, and `A_isCSR`, `A_isBSR`, `T_isBSR` are
`isspmatrix_csr(A)`, `isspmatrix_bsr(A)`, `isspmatrix_bsr(T)`.  The
blocksize comparison at line 214 only prints a warning and raises nothing. -/
def validate (num_iters_isInt : Bool) (num_iters : ℤ) (min_tol : ℚ)
    (A_isCSR A_isBSR T_isBSR : Bool) : Option String :=
  if num_iters_isInt = false then
    some "num_iters must be an integer"
  else if num_iters < 0 then
    some "num_iters must be nonnegative"
  else if 1 < min_tol then
    some "0 < min_tol < 1"
  else if A_isCSR = false ∧ A_isBSR = false then
    some "requires a CSR or BSR operator"
  else if T_isBSR = false then
    some "requires a BSR tentative prolongator"
  else
    none

/-- smooth.py lines 238-254 (scalar branch): `D = A.diagonal()`; if `D` has a
zero entry on a structurally nonzero row of `A`
(`A.indptr[i] != A.indptr[i+1]`), raise
`"Zero on diag(A) for nonzero row of A"`; otherwise the zero entries of `D`
all sit on structurally empty rows and are replaced by 1.0. -/
def buildD {n : ℕ} (A : SparseM n n) : Except String (Fin n → ℚ) :=
  if ∃ i, A.val i i = 0 ∧ (A.supp i).Nonempty then
    Except.error "Zero on diag(A) for nonzero row of A in sa_ode_energy_min routine. -- Aborting."
  else
    Except.ok fun i => if A.val i i = 0 then 1 else A.val i i

/-- smooth.py line 275 (scalar branch):
`Sparsity_Pattern = Atilde.__abs__()*T.__abs__()`, then `data[:] = 1.0`.
scipy's sparse product is structural: column `j` is stored in row `i` iff a
stored entry `Atilde[i,t]` meets a stored entry `T[t,j]`; all stored values
are then overwritten with 1.0, so only the structure remains. -/
def patternSupp {n m : ℕ} (Atilde : SparseM n n) (T : SparseM n m) :
    Fin n → Finset (Fin m) :=
  fun i => (Atilde.supp i).biUnion T.supp

/-- The mutable state carried across iterations of the two minimization
loops (smooth.py lines 403-472): the prolongator `T`, the residual `R`, and —
for the CG branch — the previous search direction with its `oldsum`
(`P`, `oldsum` at lines 417-419), absent on the first iteration. -/
structure CGState (n m : ℕ) where
  T : Matrix (Fin n) (Fin m) ℚ
  R : Matrix (Fin n) (Fin m) ℚ
  prev : Option (Matrix (Fin n) (Fin m) ℚ × ℚ)

/-- `Z = Dinv*R` (smooth.py line 408), with `Dinv = spdiags(1.0/D, 0, ...)`
(line 256). -/
def spdZ {n m : ℕ} (Dinv : Fin n → ℚ) (st : CGState n m) :
    Matrix (Fin n) (Fin m) ℚ :=
  Matrix.diagonal Dinv * st.R

/-- `newsum = (R.multiply(Z)).sum()` (smooth.py line 411). -/
def spdNewsum {n m : ℕ} (Dinv : Fin n → ℚ) (st : CGState n m) : ℚ :=
  innerF st.R (spdZ Dinv st)

/-- The CG search direction (smooth.py lines 414-418): `P = Z` on the first
iteration, else `P = Z + (newsum/oldsum)*P_prev`. -/
def spdDir {n m : ℕ} (Dinv : Fin n → ℚ) (st : CGState n m) :
    Matrix (Fin n) (Fin m) ℚ :=
  match st.prev with
  | none => spdZ Dinv st
  | some (Pprev, oldsum) => spdZ Dinv st + (spdNewsum Dinv st / oldsum) • Pprev

/-- `AP = A*P`, masked to the sparsity pattern and passed through the
constraint projector (smooth.py lines 422-427, scalar branch). -/
def spdAP {n m k : ℕ} (A : Matrix (Fin n) (Fin n) ℚ) (SP : Fin n → Finset (Fin m))
    (B : Matrix (Fin m) (Fin k) ℚ) (X : Fin n → Matrix (Fin k) (Fin k) ℚ)
    (Dinv : Fin n → ℚ) (st : CGState n m) : Matrix (Fin n) (Fin m) ℚ :=
  Satisfy_Constraints_CSR (maskTo SP (A * spdDir Dinv st)) SP B X

/-- One iteration of the CG branch (smooth.py lines 407-439):
`alpha = newsum/(P.multiply(AP)).sum()`, `T += alpha*P`, `R -= alpha*AP`. -/
def spdStep {n m k : ℕ} (A : Matrix (Fin n) (Fin n) ℚ) (SP : Fin n → Finset (Fin m))
    (B : Matrix (Fin m) (Fin k) ℚ) (X : Fin n → Matrix (Fin k) (Fin k) ℚ)
    (Dinv : Fin n → ℚ) (st : CGState n m) : CGState n m :=
  let P := spdDir Dinv st
  let AP := spdAP A SP B X Dinv st
  let alpha := spdNewsum Dinv st / innerF P AP
  ⟨st.T + alpha • P, st.R - alpha • AP, some (P, spdNewsum Dinv st)⟩

/-- The CG loop (smooth.py lines 404-440):
`while i < num_iters and resid > min_tol`, recomputing the residual norm from
the stored entries of `R` after each step. -/
def spdLoop {n m k : ℕ} (A : Matrix (Fin n) (Fin n) ℚ) (SP : Fin n → Finset (Fin m))
    (B : Matrix (Fin m) (Fin k) ℚ) (X : Fin n → Matrix (Fin k) (Fin k) ℚ)
    (Dinv : Fin n → ℚ) (min_tol : ℚ) : ℕ → CGState n m → CGState n m
  | 0, st => st
  | fuel + 1, st =>
    if min_tol < residOf SP st.R then
      spdLoop A SP B X Dinv min_tol fuel (spdStep A SP B X Dinv st)
    else st

/-- The minimum-residual search direction `P = A*R`, masked to the sparsity
pattern and passed through the constraint projector (smooth.py lines
447-454, scalar branch). -/
def mrP {n m k : ℕ} (A : Matrix (Fin n) (Fin n) ℚ) (SP : Fin n → Finset (Fin m))
    (B : Matrix (Fin m) (Fin k) ℚ) (X : Fin n → Matrix (Fin k) (Fin k) ℚ)
    (st : CGState n m) : Matrix (Fin n) (Fin m) ℚ :=
  Satisfy_Constraints_CSR (maskTo SP (A * st.R)) SP B X

/-- One iteration of the non-symmetric (minimum-residual) branch (smooth.py
lines 444-471): `alpha = (P.multiply(R)).sum()/(P.multiply(P)).sum()`,
`T += alpha*R`, `R -= alpha*P`. -/
def mrStep {n m k : ℕ} (A : Matrix (Fin n) (Fin n) ℚ) (SP : Fin n → Finset (Fin m))
    (B : Matrix (Fin m) (Fin k) ℚ) (X : Fin n → Matrix (Fin k) (Fin k) ℚ)
    (st : CGState n m) : CGState n m :=
  let P := mrP A SP B X st
  let alpha := innerF P st.R / innerF P P
  ⟨st.T + alpha • st.R, st.R - alpha • P, st.prev⟩

/-- The minimum-residual loop (smooth.py lines 443-472). -/
def mrLoop {n m k : ℕ} (A : Matrix (Fin n) (Fin n) ℚ) (SP : Fin n → Finset (Fin m))
    (B : Matrix (Fin m) (Fin k) ℚ) (X : Fin n → Matrix (Fin k) (Fin k) ℚ)
    (min_tol : ℚ) : ℕ → CGState n m → CGState n m
  | 0, st => st
  | fuel + 1, st =>
    if min_tol < residOf SP st.R then
      mrLoop A SP B X min_tol fuel (mrStep A SP B X st)
    else st

/-- smooth.py lines 159-490, the scalar (CSR) branch of
`energy_prolongation_smoother(A, T, Atilde, B, SPD, num_iters, min_tol)`:

* lines 200-213: argument validation (`validate`);
* lines 216-218: if `A`, `T` or `Atilde` stores no entries, print a
  diagnostic and return `T` unchanged;
* lines 238-256: build `D` with the zero-diagonal check (`buildD`) and
  `Dinv = spdiags(1.0/D, ...)`;
* lines 271-277: `T` is converted to CSR (the dense view `T.val` is
  unchanged) and the sparsity pattern is formed (`patternSupp`);
* lines 295-332: the local gram inverse table (`build_BtBinv` over the
  external SVD oracle `svd`);
* lines 381-392: `R = -A*T`, masked to the pattern and projected; after the
  subtraction inside `Satisfy_Constraints_CSR` the stored structure of `R`
  is exactly the pattern's, so `R.nnz == 0` iff the pattern stores nothing;
  in that case the external default smoother
  `pyamg.sa.sa_smoothed_prolongator(A, T)` (parameter `fallbackP`) is
  returned;
* lines 400-472: the CG or minimum-residual loop;
* lines 478-479: the final conversion back to BSR keeps the dense view.

`file_output` (lines 282-288, 485-487) only dumps diagnostic files and is
omitted. -/
def energy_prolongation_smoother {n m k : ℕ} [NeZero k]
    (svd : Matrix (Fin k) (Fin k) ℚ →
      Matrix (Fin k) (Fin k) ℚ × (Fin k → ℚ) × Matrix (Fin k) (Fin k) ℚ)
    (fallbackP : Matrix (Fin n) (Fin m) ℚ)
    (A : SparseM n n) (T : SparseM n m) (Atilde : SparseM n n)
    (B : Matrix (Fin m) (Fin k) ℚ) (SPD : Bool)
    (num_iters_isInt : Bool) (num_iters : ℤ) (min_tol : ℚ)
    (A_isCSR A_isBSR T_isBSR : Bool) :
    Except String (Matrix (Fin n) (Fin m) ℚ) :=
  match validate num_iters_isInt num_iters min_tol A_isCSR A_isBSR T_isBSR with
  | some e => Except.error e
  | none =>
    if T.nnz = 0 ∨ Atilde.nnz = 0 ∨ A.nnz = 0 then
      Except.ok T.val
    else
      match buildD A with
      | Except.error e => Except.error e
      | Except.ok D =>
        let Dinv : Fin n → ℚ := fun i => 1 / D i
        let SP := patternSupp Atilde T
        let X := build_BtBinv svd SP B
        let R0 := Satisfy_Constraints_CSR (maskTo SP (-(A.val * T.val))) SP B X
        if (∑ i, (SP i).card) = 0 then
          Except.ok fallbackP
        else if SPD then
          Except.ok (spdLoop A.val SP B X Dinv min_tol num_iters.toNat ⟨T.val, R0, none⟩).T
        else
          Except.ok (mrLoop A.val SP B X min_tol num_iters.toNat ⟨T.val, R0, none⟩).T

/-- `B` with the rows outside the support set `s` zeroed: a dense rendering of
the row restriction `Bi = B[colindx, :]` that keeps the ambient row type. -/
def maskRows {κ : Type} [Fintype κ] [DecidableEq κ] {k : ℕ} (s : Finset κ)
    (B : Matrix κ (Fin k) ℚ) : Matrix κ (Fin k) ℚ :=
  Matrix.of fun j l => if j ∈ s then B j l else 0

/-- The exact-arithmetic contract of a local gram inverse `X` for the local
Gram matrix `G = Bi.T*Bi`: `G*X*G = G` and `X` symmetric.  The SVD-based
pseudoinverse assembled by smooth.py satisfies this, in exact arithmetic,
whenever the relative-threshold filter removed only exactly-zero singular
values. -/
abbrev pinvProp {k : ℕ} (G X : Matrix (Fin k) (Fin k) ℚ) : Prop :=
  G * X * G = G ∧ X.transpose = X

/-- Concrete 2×2 SPD operator `A = [[1, 9/10], [9/10, 1]]`, stored with full
structure. -/
def exA : SparseM 2 2 := ⟨fun _ => Finset.univ, !![1, 9/10; 9/10, 1]⟩

/-- Concrete tentative prolongator for the 2-fine-point, 2-coarse-point
example. -/
def exT : SparseM 2 2 := ⟨fun _ => Finset.univ, !![1, -145/19; 1, 140/19]⟩

/-- Concrete near-nullspace matrix (one candidate vector). -/
def exB : Matrix (Fin 2) (Fin 1) ℚ := !![1; 0]

/-- Exact SVD oracle for 1×1 matrices: `[[c]] = [[1]] * diag c * [[1]]` (valid
whenever `c ≥ 0`, as is the case for the Gram matrices it is applied to). -/
def svd1 : Matrix (Fin 1) (Fin 1) ℚ →
    Matrix (Fin 1) (Fin 1) ℚ × (Fin 1 → ℚ) × Matrix (Fin 1) (Fin 1) ℚ :=
  fun G => (1, fun _ => G 0 0, 1)

/-- Sparsity pattern of the concrete example (full). -/
def exSP : Fin 2 → Finset (Fin 2) := patternSupp exA exT

/-- Local gram inverse table of the concrete example. -/
def exX : Fin 2 → Matrix (Fin 1) (Fin 1) ℚ := build_BtBinv svd1 exSP exB

/-- Initial projected residual of the concrete example, exactly as
`energy_prolongation_smoother` computes it. -/
def exR0 : Matrix (Fin 2) (Fin 2) ℚ :=
  Satisfy_Constraints_CSR (maskTo exSP (-(exA.val * exT.val))) exSP exB exX

/-- `1.0/D` for the concrete example (no zero diagonal entries). -/
def exDinv : Fin 2 → ℚ := fun i => 1 / (if exA.val i i = 0 then 1 else exA.val i i)

/-- Initial loop state of the concrete example. -/
def exSt0 : CGState 2 2 := ⟨exT.val, exR0, none⟩

/-- The state after one CG iteration on the concrete example. -/
def exSt1 : CGState 2 2 := spdStep exA.val exSP exB exX exDinv exSt0

/-- The prolongator returned by the concrete run (`num_iters = 1`,
`min_tol = 0`). -/
def exP1 : Matrix (Fin 2) (Fin 2) ℚ :=
  (spdLoop exA.val exSP exB exX exDinv 0 1 exSt0).T

/-- Concrete operand for the CSR constraint projector witness. -/
def exU2 : Matrix (Fin 2) (Fin 1) ℚ := !![2; 3]

/-- Concrete near-nullspace matrix for the CSR constraint projector
witness. -/
def exB2 : Matrix (Fin 1) (Fin 1) ℚ := !![1]

/-- Concrete gram inverse table for the CSR constraint projector witness. -/
def exX2 : Fin 2 → Matrix (Fin 1) (Fin 1) ℚ := fun _ => !![1]

/-- Concrete sparsity pattern for the CSR constraint projector witness. -/
def exSP2 : Fin 2 → Finset (Fin 1) := fun _ => Finset.univ

/-- Concrete operand for the BSR constraint projector witness (one node, 1×1
blocks). -/
def exU3 : Matrix (Fin 1 × Fin 1) (Fin 1 × Fin 1) ℚ := Matrix.of fun _ _ => 2

/-- Concrete node support for the BSR constraint projector witness. -/
def exNS3 : Fin 1 → Finset (Fin 1) := fun _ => Finset.univ

/-- Concrete near-nullspace matrix for the BSR constraint projector
witness. -/
def exB3 : Matrix (Fin 1 × Fin 1) (Fin 1) ℚ := Matrix.of fun _ _ => 1

/-- Concrete gram inverse table for the BSR constraint projector witness. -/
def exX3 : Fin 1 → Matrix (Fin 1) (Fin 1) ℚ := fun _ => !![1]

/-- Concrete singular value array for the truncation rule witness (sorted
descending, nonnegative). -/
def exSg : Fin 2 → ℚ := fun l => if l = 0 then 4 else 1

/-- Concrete SVD oracle for the truncation rule witness. -/
def svd2 : Matrix (Fin 2) (Fin 2) ℚ →
    Matrix (Fin 2) (Fin 2) ℚ × (Fin 2 → ℚ) × Matrix (Fin 2) (Fin 2) ℚ :=
  fun _ => (1, exSg, 1)

/-- Concrete (single-row) support for the truncation rule witness. -/
def exSPc3 : Fin 1 → Finset (Fin 2) := fun _ => Finset.univ

/-- Concrete near-nullspace matrix for the truncation rule witness. -/
def exBc3 : Matrix (Fin 2) (Fin 2) ℚ := 1

/-- Concrete operator with a zero diagonal entry on a structurally nonzero
row (for the zero-diagonal abort witness). -/
def exA6 : SparseM 2 2 := ⟨fun _ => Finset.univ, !![0, 1; 1, 1]⟩

/-- Concrete operator with no stored entries (for the degenerate-input
witness). -/
def exA8 : SparseM 2 2 := ⟨fun _ => ∅, 0⟩

theorem pymax_eq_max (a b : ℚ) : pymax a b = max a b := by
  rw [pymax, max_def]

theorem transpose_mul_self_eq_zero_q {ρ : Type} [Fintype ρ] {k : ℕ}
    {M : Matrix ρ (Fin k) ℚ} (h : M.transpose * M = 0) : M = 0 := by
  ext i j
  have hd : Matrix.dotProduct (fun a => M a j) (fun a => M a j) = 0 := by
    have h2 := congrFun (congrFun h j) j
    simpa [Matrix.mul_apply, Matrix.transpose_apply, Matrix.dotProduct] using h2
  have h3 := Matrix.dotProduct_self_eq_zero.mp hd
  simpa using congrFun h3 i

theorem rowGram_eq_maskRows {κ : Type} [Fintype κ] [DecidableEq κ] {k : ℕ}
    (s : Finset κ) (B : Matrix κ (Fin k) ℚ) :
    rowGram s B = (maskRows s B).transpose * maskRows s B := by
  ext l1 l2
  simp only [rowGram, maskRows, Matrix.mul_apply, Matrix.transpose_apply, Matrix.of_apply]
  have h1 : ∀ j : κ, (if j ∈ s then B j l1 else 0) * (if j ∈ s then B j l2 else 0)
      = if j ∈ s then B j l1 * B j l2 else 0 := by
    intro j; by_cases hj : j ∈ s <;> simp [hj]
  rw [Finset.sum_congr rfl fun j _ => h1 j, Finset.sum_ite_mem, Finset.univ_inter]

theorem pinv_absorb {κ : Type} [Fintype κ] {k : ℕ} (A : Matrix κ (Fin k) ℚ)
    {X : Matrix (Fin k) (Fin k) ℚ} (hXs : X.transpose = X)
    (hGXG : A.transpose * A * X * (A.transpose * A) = A.transpose * A) :
    A.transpose * A * X * A.transpose = A.transpose := by
  have h1 : A.transpose * (A * (X * (A.transpose * A))) = A.transpose * A := by
    simpa [Matrix.mul_assoc] using hGXG
  have hM : A * X * (A.transpose * A) - A = 0 := by
    apply transpose_mul_self_eq_zero_q
    have ht : (A * X * (A.transpose * A) - A).transpose
        = A.transpose * A * X * A.transpose - A.transpose := by
      simp [Matrix.transpose_sub, Matrix.transpose_mul, hXs, Matrix.mul_assoc]
    rw [ht]
    simp only [Matrix.sub_mul, Matrix.mul_sub, Matrix.mul_assoc, h1]
    simp
  have h2 : A * X * (A.transpose * A) = A := by
    have := sub_eq_zero.mp hM
    exact this
  calc A.transpose * A * X * A.transpose
      = (A * X * (A.transpose * A)).transpose := by
        simp [Matrix.transpose_mul, hXs, Matrix.mul_assoc]
    _ = A.transpose := by rw [h2]

theorem mulB_row {ρ κ : Type} [Fintype ρ] [Fintype κ] [DecidableEq κ] {k : ℕ}
    (supp : ρ → Finset κ) (B : Matrix κ (Fin k) ℚ) (V : Matrix ρ κ ℚ) (i : ρ)
    (hV : ∀ j, j ∉ supp i → V i j = 0) :
    (fun l2 => (V * B) i l2)
      = Matrix.mulVec (maskRows (supp i) B).transpose (fun j => V i j) := by
  funext l2
  simp only [Matrix.mul_apply, Matrix.mulVec, Matrix.dotProduct, Matrix.transpose_apply,
    maskRows, Matrix.of_apply]
  apply Finset.sum_congr rfl
  intro j _
  by_cases hj : j ∈ supp i
  · simp [hj, mul_comm]
  · simp [hj, hV j hj]

theorem scratchOf_row {ρ κ : Type} [Fintype ρ] [Fintype κ] [DecidableEq κ] {k : ℕ}
    (supp : ρ → Finset κ) (B : Matrix κ (Fin k) ℚ)
    (X : ρ → Matrix (Fin k) (Fin k) ℚ) (U : Matrix ρ κ ℚ) (i : ρ)
    (hU : ∀ j, j ∉ supp i → U i j = 0) :
    (fun j => scratchOf supp B X U i j)
      = Matrix.mulVec (maskRows (supp i) B)
          (Matrix.mulVec (X i)
            (Matrix.mulVec (maskRows (supp i) B).transpose (fun j => U i j))) := by
  funext j
  have hinner : ∀ l2, (U * B) i l2
      = ∑ j2, (if j2 ∈ supp i then B j2 l2 else 0) * U i j2 := by
    intro l2
    rw [Matrix.mul_apply]
    apply Finset.sum_congr rfl
    intro j2 _
    by_cases h2 : j2 ∈ supp i
    · simp [h2, mul_comm]
    · simp [h2, hU j2 h2]
  simp only [scratchOf, Matrix.of_apply, Matrix.mulVec, Matrix.dotProduct,
    Matrix.transpose_apply, maskRows]
  by_cases hj : j ∈ supp i
  · rw [if_pos hj]
    apply Finset.sum_congr rfl
    intro l1 _
    rw [if_pos hj]
    congr 1
    apply Finset.sum_congr rfl
    intro l2 _
    rw [hinner l2]
  · rw [if_neg hj]
    symm
    apply Finset.sum_eq_zero
    intro l1 _
    rw [if_neg hj, zero_mul]

theorem satisfyCore_supp {ρ κ : Type} [Fintype ρ] [Fintype κ] [DecidableEq κ] {k : ℕ}
    (supp : ρ → Finset κ) (B : Matrix κ (Fin k) ℚ)
    (X : ρ → Matrix (Fin k) (Fin k) ℚ) (U : Matrix ρ κ ℚ)
    (hU : ∀ i j, j ∉ supp i → U i j = 0) :
    ∀ i j, j ∉ supp i → satisfyCore supp B X U i j = 0 := by
  intro i j hj
  simp [satisfyCore, Matrix.sub_apply, scratchOf, hj, hU i j hj]

theorem satisfyCore_mul_B {ρ κ : Type} [Fintype ρ] [Fintype κ] [DecidableEq κ] {k : ℕ}
    (supp : ρ → Finset κ) (B : Matrix κ (Fin k) ℚ)
    (X : ρ → Matrix (Fin k) (Fin k) ℚ) (U : Matrix ρ κ ℚ)
    (hU : ∀ i j, j ∉ supp i → U i j = 0)
    (hX : ∀ i, pinvProp (rowGram (supp i) B) (X i)) :
    satisfyCore supp B X U * B = 0 := by
  ext i l
  have habs : rowGram (supp i) B * X i * (maskRows (supp i) B).transpose
      = (maskRows (supp i) B).transpose := by
    have h1 := (hX i).1
    have h2 := (hX i).2
    rw [rowGram_eq_maskRows] at h1 ⊢
    exact pinv_absorb _ h2 h1
  have hrow := mulB_row supp B (satisfyCore supp B X U) i
    (satisfyCore_supp supp B X U hU i)
  have h0 : (satisfyCore supp B X U * B) i l
      = Matrix.mulVec (maskRows (supp i) B).transpose
          (fun j => satisfyCore supp B X U i j) l := congrFun hrow l
  rw [Matrix.zero_apply, h0]
  have hsplit : (fun j => satisfyCore supp B X U i j)
      = (fun j => U i j) - Matrix.mulVec (maskRows (supp i) B)
          (Matrix.mulVec (X i)
            (Matrix.mulVec (maskRows (supp i) B).transpose (fun j => U i j))) := by
    rw [← scratchOf_row supp B X U i (hU i)]
    funext j
    simp [satisfyCore, Matrix.sub_apply]
  rw [hsplit, Matrix.mulVec_sub]
  rw [Matrix.mulVec_mulVec, Matrix.mulVec_mulVec, Matrix.mulVec_mulVec]
  rw [← rowGram_eq_maskRows, habs]
  simp

theorem scratchOf_of_mul_B_zero {ρ κ : Type} [Fintype ρ] [Fintype κ] [DecidableEq κ] {k : ℕ}
    (supp : ρ → Finset κ) (B : Matrix κ (Fin k) ℚ)
    (X : ρ → Matrix (Fin k) (Fin k) ℚ) (U : Matrix ρ κ ℚ)
    (hUB : U * B = 0) : scratchOf supp B X U = 0 := by
  ext i j
  have hz : ∀ l2, (U * B) i l2 = 0 := fun l2 => by rw [hUB]; rfl
  simp [scratchOf, hz]

theorem satisfyCore_of_mul_B_zero {ρ κ : Type} [Fintype ρ] [Fintype κ] [DecidableEq κ] {k : ℕ}
    (supp : ρ → Finset κ) (B : Matrix κ (Fin k) ℚ)
    (X : ρ → Matrix (Fin k) (Fin k) ℚ) (U : Matrix ρ κ ℚ)
    (hUB : U * B = 0) : satisfyCore supp B X U = U := by
  rw [satisfyCore, scratchOf_of_mul_B_zero supp B X U hUB, sub_zero]

theorem satisfyCore_idem {ρ κ : Type} [Fintype ρ] [Fintype κ] [DecidableEq κ] {k : ℕ}
    (supp : ρ → Finset κ) (B : Matrix κ (Fin k) ℚ)
    (X : ρ → Matrix (Fin k) (Fin k) ℚ) (U : Matrix ρ κ ℚ)
    (hU : ∀ i j, j ∉ supp i → U i j = 0)
    (hX : ∀ i, pinvProp (rowGram (supp i) B) (X i)) :
    satisfyCore supp B X (satisfyCore supp B X U) = satisfyCore supp B X U :=
  satisfyCore_of_mul_B_zero supp B X _ (satisfyCore_mul_B supp B X U hU hX)

theorem maskTo_supp {n m : ℕ} (s : Fin n → Finset (Fin m)) (M : Matrix (Fin n) (Fin m) ℚ) :
    ∀ i j, j ∉ s i → maskTo s M i j = 0 := by
  intro i j hj
  simp [maskTo, hj]

theorem innerF_comm {n m : ℕ} (X Y : Matrix (Fin n) (Fin m) ℚ) : innerF X Y = innerF Y X := by
  simp only [innerF]
  exact Finset.sum_congr rfl fun i _ => Finset.sum_congr rfl fun j _ => mul_comm _ _

theorem innerF_add_left {n m : ℕ} (X Y Z : Matrix (Fin n) (Fin m) ℚ) :
    innerF (X + Y) Z = innerF X Z + innerF Y Z := by
  simp [innerF, Matrix.add_apply, add_mul, Finset.sum_add_distrib]

theorem innerF_smul_left {n m : ℕ} (c : ℚ) (X Y : Matrix (Fin n) (Fin m) ℚ) :
    innerF (c • X) Y = c * innerF X Y := by
  simp [innerF, Matrix.smul_apply, Finset.mul_sum, smul_eq_mul, mul_assoc]

theorem innerF_sub_right {n m : ℕ} (X Y Z : Matrix (Fin n) (Fin m) ℚ) :
    innerF X (Y - Z) = innerF X Y - innerF X Z := by
  simp [innerF, Matrix.sub_apply, mul_sub, Finset.sum_sub_distrib]

theorem innerF_smul_right {n m : ℕ} (c : ℚ) (X Y : Matrix (Fin n) (Fin m) ℚ) :
    innerF X (c • Y) = c * innerF X Y := by
  simp only [innerF, Matrix.smul_apply, smul_eq_mul, Finset.mul_sum]
  exact Finset.sum_congr rfl fun i _ => Finset.sum_congr rfl fun j _ => by ring

theorem spdLoop_T_mul_B {n m k : ℕ} (A : Matrix (Fin n) (Fin n) ℚ)
    (SP : Fin n → Finset (Fin m)) (B : Matrix (Fin m) (Fin k) ℚ)
    (X : Fin n → Matrix (Fin k) (Fin k) ℚ) (Dinv : Fin n → ℚ) (min_tol : ℚ)
    (hX : ∀ i, pinvProp (rowGram (SP i) B) (X i)) :
    ∀ (fuel : ℕ) (st : CGState n m),
      st.R * B = 0 → (∀ Pp s, st.prev = some (Pp, s) → Pp * B = 0) →
      (spdLoop A SP B X Dinv min_tol fuel st).T * B = st.T * B := by
  intro fuel
  induction fuel with
  | zero => intro st _ _; rfl
  | succ fuel ih =>
    intro st hR hprev
    rw [spdLoop]
    by_cases hres : min_tol < residOf SP st.R
    · rw [if_pos hres]
      have hZ : spdZ Dinv st * B = 0 := by
        rw [spdZ, Matrix.mul_assoc, hR, Matrix.mul_zero]
      have hP : spdDir Dinv st * B = 0 := by
        cases hp : st.prev with
        | none => simpa [spdDir, hp] using hZ
        | some pr =>
          have hPp := hprev pr.1 pr.2 (by rw [hp])
          simp only [spdDir, hp]
          rw [Matrix.add_mul, Matrix.smul_mul, hZ, hPp, smul_zero, add_zero]
      have hAP : spdAP A SP B X Dinv st * B = 0 :=
        satisfyCore_mul_B SP B X _ (maskTo_supp SP _) hX
      have hstepT : (spdStep A SP B X Dinv st).T * B = st.T * B := by
        show (st.T + _ • spdDir Dinv st) * B = st.T * B
        rw [Matrix.add_mul, Matrix.smul_mul, hP, smul_zero, add_zero]
      have hstepR : (spdStep A SP B X Dinv st).R * B = 0 := by
        show (st.R - _ • spdAP A SP B X Dinv st) * B = 0
        rw [Matrix.sub_mul, Matrix.smul_mul, hAP, smul_zero, hR, sub_zero]
      have hstepPrev : ∀ Pp s, (spdStep A SP B X Dinv st).prev = some (Pp, s) → Pp * B = 0 := by
        intro Pp s hps
        have h2 : some (spdDir Dinv st, spdNewsum Dinv st) = some (Pp, s) := hps
        have h3 := Option.some.inj h2
        have h4 : spdDir Dinv st = Pp := congrArg Prod.fst h3
        rw [← h4]
        exact hP
      rw [ih (spdStep A SP B X Dinv st) hstepR hstepPrev, hstepT]
    · rw [if_neg hres]

theorem mrLoop_T_mul_B {n m k : ℕ} (A : Matrix (Fin n) (Fin n) ℚ)
    (SP : Fin n → Finset (Fin m)) (B : Matrix (Fin m) (Fin k) ℚ)
    (X : Fin n → Matrix (Fin k) (Fin k) ℚ) (min_tol : ℚ)
    (hX : ∀ i, pinvProp (rowGram (SP i) B) (X i)) :
    ∀ (fuel : ℕ) (st : CGState n m),
      st.R * B = 0 →
      (mrLoop A SP B X min_tol fuel st).T * B = st.T * B := by
  intro fuel
  induction fuel with
  | zero => intro st _; rfl
  | succ fuel ih =>
    intro st hR
    rw [mrLoop]
    by_cases hres : min_tol < residOf SP st.R
    · rw [if_pos hres]
      have hP : mrP A SP B X st * B = 0 :=
        satisfyCore_mul_B SP B X _ (maskTo_supp SP _) hX
      have hstepT : (mrStep A SP B X st).T * B = st.T * B := by
        show (st.T + _ • st.R) * B = st.T * B
        rw [Matrix.add_mul, Matrix.smul_mul, hR, smul_zero, add_zero]
      have hstepR : (mrStep A SP B X st).R * B = 0 := by
        show (st.R - _ • mrP A SP B X st) * B = 0
        rw [Matrix.sub_mul, Matrix.smul_mul, hP, smul_zero, hR, sub_zero]
      rw [ih (mrStep A SP B X st) hstepR, hstepT]
    · rw [if_neg hres]

/-- C7: the argument validation at the head of `energy_prolongation_smoother`
rejects exactly these inputs: `num_iters` not an integer, `num_iters`
negative, `min_tol > 1`, `A` neither CSR nor BSR, `T` not BSR; every other
combination passes (in particular `min_tol ≤ 0` and `min_tol = 1` are
accepted, since only `min_tol > 1` is tested), and a rejection surfaces as an
error before any computation is performed. -/
theorem egm_C7 :
    (∀ (nii : Bool) (ni : ℤ) (mt : ℚ) (acsr absr tbsr : Bool),
      validate nii ni mt acsr absr tbsr ≠ none ↔
        (nii = false ∨ ni < 0 ∨ 1 < mt ∨ (acsr = false ∧ absr = false) ∨ tbsr = false))
    ∧ (∀ (n m k : ℕ) [NeZero k]
        (svd : Matrix (Fin k) (Fin k) ℚ →
          Matrix (Fin k) (Fin k) ℚ × (Fin k → ℚ) × Matrix (Fin k) (Fin k) ℚ)
        (fallbackP : Matrix (Fin n) (Fin m) ℚ) (A : SparseM n n) (T : SparseM n m)
        (Atilde : SparseM n n) (B : Matrix (Fin m) (Fin k) ℚ) (SPD : Bool)
        (nii : Bool) (ni : ℤ) (mt : ℚ) (acsr absr tbsr : Bool) (e : String),
        validate nii ni mt acsr absr tbsr = some e →
        energy_prolongation_smoother svd fallbackP A T Atilde B SPD nii ni mt acsr absr tbsr
          = Except.error e) := by
  constructor
  · intro nii ni mt acsr absr tbsr
    simp only [validate]
    split_ifs with h1 h2 h3 h4 h5 <;> simp_all
  · intro n m k _ svd fallbackP A T Atilde B SPD nii ni mt acsr absr tbsr e hv
    unfold energy_prolongation_smoother
    rw [hv]

/-- C8: whenever the validation passed and `A`, `T` or `Atilde` stores no
entries, `energy_prolongation_smoother` returns the tentative prolongator `T`
unchanged (no error is raised; the Python code only prints a diagnostic). -/
theorem egm_C8 {n m k : ℕ} [NeZero k]
    (svd : Matrix (Fin k) (Fin k) ℚ →
      Matrix (Fin k) (Fin k) ℚ × (Fin k → ℚ) × Matrix (Fin k) (Fin k) ℚ)
    (fallbackP : Matrix (Fin n) (Fin m) ℚ) (A : SparseM n n) (T : SparseM n m)
    (Atilde : SparseM n n) (B : Matrix (Fin m) (Fin k) ℚ) (SPD : Bool)
    (nii : Bool) (ni : ℤ) (mt : ℚ) (acsr absr tbsr : Bool)
    (hv : validate nii ni mt acsr absr tbsr = none)
    (hz : T.nnz = 0 ∨ Atilde.nnz = 0 ∨ A.nnz = 0) :
    energy_prolongation_smoother svd fallbackP A T Atilde B SPD nii ni mt acsr absr tbsr
      = Except.ok T.val := by
  unfold energy_prolongation_smoother
  rw [hv]
  simp only []
  rw [if_pos hz]

/-- C9: `jacobi_prolongation_smoother` returns exactly
`P = (I - (omega/rho) * Dinv*S) * T` where `Dinv` inverts the diagonal of `S`
with zero diagonal entries mapped to a zero scaling factor, and
`rho = approximate_spectral_radius(Dinv*S)` is the external spectral-radius
estimate; the function is pure (it is a plain function of its arguments and
returns a fresh matrix, leaving `S` and `T` untouched) and performs no
iteration. -/
theorem egm_C9 {n m : ℕ} (S : Matrix (Fin n) (Fin n) ℚ) (T : Matrix (Fin n) (Fin m) ℚ)
    (omega : ℚ) (asr : Matrix (Fin n) (Fin n) ℚ → ℚ) :
    jacobi_prolongation_smoother S T omega asr
      = (1 - (omega / asr (scale_rows S (jacobiDinv S))) •
          (Matrix.diagonal (jacobiDinv S) * S)) * T := by
  have hscale : scale_rows S (jacobiDinv S) = Matrix.diagonal (jacobiDinv S) * S := by
    ext i j
    simp [scale_rows, Matrix.diagonal_mul]
  simp only [jacobi_prolongation_smoother, hscale, Matrix.sub_mul, Matrix.one_mul]

/-- C10: both `Satisfy_Constraints` routines leave their arguments observably
unchanged: the returned pattern state carries the value 1.0 at every stored
entry (the scratch values are reset before returning), and the returned
operator is exactly the pure function of the original `U` — `U` is only read
(in the Python source `U = U - Sparsity_Pattern` rebinds the local name to a
fresh matrix). -/
theorem egm_C10 :
    (∀ (n m k : ℕ) (U : Matrix (Fin n) (Fin m) ℚ) (SP : Fin n → Finset (Fin m))
        (data : Matrix (Fin n) (Fin m) ℚ) (B : Matrix (Fin m) (Fin k) ℚ)
        (BtBinv : Fin n → Matrix (Fin k) (Fin k) ℚ),
      (Satisfy_Constraints_CSR_inplace U SP data B BtBinv).1
          = Satisfy_Constraints_CSR U SP B BtBinv ∧
        (Satisfy_Constraints_CSR_inplace U SP data B BtBinv).2 = Matrix.of fun _ _ => 1)
    ∧ (∀ (nn r mm c k : ℕ) (U : Matrix (Fin nn × Fin r) (Fin mm × Fin c) ℚ)
        (nodeSupp : Fin nn → Finset (Fin mm))
        (data : Matrix (Fin nn × Fin r) (Fin mm × Fin c) ℚ)
        (B : Matrix (Fin mm × Fin c) (Fin k) ℚ)
        (BtBinv : Fin nn → Matrix (Fin k) (Fin k) ℚ),
      (Satisfy_Constraints_BSR_inplace U nodeSupp data B BtBinv).1
          = Satisfy_Constraints_BSR U nodeSupp B BtBinv ∧
        (Satisfy_Constraints_BSR_inplace U nodeSupp data B BtBinv).2
          = Matrix.of fun _ _ => 1) := by
  constructor
  · intro n m k U SP data B BtBinv
    refine ⟨?_, rfl⟩
    ext i j
    by_cases hj : j ∈ SP i <;>
      simp [Satisfy_Constraints_CSR_inplace, Satisfy_Constraints_CSR, satisfyCore,
        scratchOf, Matrix.sub_apply, hj]
  · intro nn r mm c k U nodeSupp data B BtBinv
    refine ⟨?_, rfl⟩
    ext p q
    by_cases hq : q ∈ colindicesOf (nodeSupp p.1) <;>
      simp [Satisfy_Constraints_BSR_inplace, Satisfy_Constraints_BSR, satisfyCore,
        scratchOf, Matrix.sub_apply, hq]

/-- C6: after validation and the nonzero-storage guard,
`energy_prolongation_smoother` aborts with an error exactly when some
structurally nonzero row of `A` has a zero diagonal entry; when it does not
abort, the diagonal `D` it builds (with 1.0 substituted at the zero entries,
which all belong to structurally empty rows) has no zero entry — so `1.0/D`
never divides by zero — and `Dinv*A` is still zero on the structurally empty
rows of `A`. -/
theorem egm_C6 {n m k : ℕ} [NeZero k]
    (svd : Matrix (Fin k) (Fin k) ℚ →
      Matrix (Fin k) (Fin k) ℚ × (Fin k → ℚ) × Matrix (Fin k) (Fin k) ℚ)
    (fallbackP : Matrix (Fin n) (Fin m) ℚ) (A : SparseM n n) (T : SparseM n m)
    (Atilde : SparseM n n) (B : Matrix (Fin m) (Fin k) ℚ) (SPD : Bool)
    (nii : Bool) (ni : ℤ) (mt : ℚ) (acsr absr tbsr : Bool)
    (hv : validate nii ni mt acsr absr tbsr = none)
    (hz : ¬(T.nnz = 0 ∨ Atilde.nnz = 0 ∨ A.nnz = 0))
    (hcons : A.Consistent) :
    ((∃ e, energy_prolongation_smoother svd fallbackP A T Atilde B SPD nii ni mt acsr absr tbsr
        = Except.error e)
      ↔ ∃ i, A.val i i = 0 ∧ (A.supp i).Nonempty)
    ∧ (∀ D, buildD A = Except.ok D →
        (∀ i, D i ≠ 0) ∧
          (∀ i j, A.supp i = ∅ →
            (Matrix.diagonal (fun i => 1 / D i) * A.val) i j = 0)) := by
  constructor
  · unfold energy_prolongation_smoother
    rw [hv]
    simp only []
    rw [if_neg hz]
    by_cases hbad : ∃ i, A.val i i = 0 ∧ (A.supp i).Nonempty
    · rw [show buildD A = Except.error
          "Zero on diag(A) for nonzero row of A in sa_ode_energy_min routine. -- Aborting."
        from by rw [buildD, if_pos hbad]]
      simpa using hbad
    · rw [show buildD A
          = Except.ok (fun i => if A.val i i = 0 then 1 else A.val i i)
        from by rw [buildD, if_neg hbad]]
      simp only []
      constructor
      · rintro ⟨e, he⟩
        exfalso
        split_ifs at he
      · intro h
        exact absurd h hbad
  · intro D hD
    have hnb : ¬∃ i, A.val i i = 0 ∧ (A.supp i).Nonempty := by
      intro hbad
      rw [buildD, if_pos hbad] at hD
      exact Except.noConfusion hD
    rw [buildD, if_neg hnb] at hD
    have hDval : D = fun i => if A.val i i = 0 then 1 else A.val i i :=
      (Except.ok.inj hD).symm
    constructor
    · intro i
      rw [hDval]
      by_cases hzero : A.val i i = 0
      · simp [hzero]
      · simp [hzero]
    · intro i j hemp
      rw [Matrix.diagonal_mul, hcons i j (by rw [hemp]; exact Finset.not_mem_empty j),
        mul_zero]

/-- C2: for every operator `U` whose nonzero pattern is contained in the
declared sparsity pattern, and a local gram inverse table satisfying the
exact pseudoinverse identities of the SVD construction, the constraint
projector returns `U1` with `U1 * B = 0` and nonzero pattern still contained
in the declared pattern — for the row-wise CSR routine and the node-wise BSR
routine alike. -/
theorem egm_C2 :
    (∀ (n m k : ℕ) (U : Matrix (Fin n) (Fin m) ℚ) (SP : Fin n → Finset (Fin m))
        (B : Matrix (Fin m) (Fin k) ℚ) (BtBinv : Fin n → Matrix (Fin k) (Fin k) ℚ),
      (∀ i j, j ∉ SP i → U i j = 0) →
      (∀ i, pinvProp (rowGram (SP i) B) (BtBinv i)) →
      Satisfy_Constraints_CSR U SP B BtBinv * B = 0 ∧
        ∀ i j, j ∉ SP i → Satisfy_Constraints_CSR U SP B BtBinv i j = 0)
    ∧ (∀ (nn r mm c k : ℕ) (U : Matrix (Fin nn × Fin r) (Fin mm × Fin c) ℚ)
        (nodeSupp : Fin nn → Finset (Fin mm)) (B : Matrix (Fin mm × Fin c) (Fin k) ℚ)
        (BtBinv : Fin nn → Matrix (Fin k) (Fin k) ℚ),
      (∀ p q, q ∉ colindicesOf (nodeSupp p.1) → U p q = 0) →
      (∀ i, pinvProp (rowGram (colindicesOf (nodeSupp i)) B) (BtBinv i)) →
      Satisfy_Constraints_BSR U nodeSupp B BtBinv * B = 0 ∧
        ∀ p q, q ∉ colindicesOf (nodeSupp p.1) →
          Satisfy_Constraints_BSR U nodeSupp B BtBinv p q = 0) := by
  constructor
  · intro n m k U SP B BtBinv hU hX
    exact ⟨satisfyCore_mul_B SP B BtBinv U hU hX,
      satisfyCore_supp SP B BtBinv U hU⟩
  · intro nn r mm c k U nodeSupp B BtBinv hU hX
    exact ⟨satisfyCore_mul_B _ B _ U hU (fun p => hX p.1),
      satisfyCore_supp _ B _ U hU⟩

/-- C4: the constraint projector is idempotent: applying
`Satisfy_Constraints_CSR` (resp. `Satisfy_Constraints_BSR`) twice with the
same pattern, `B`, and gram inverse table gives the same result as applying
it once, for every operator conforming to the pattern. -/
theorem egm_C4 :
    (∀ (n m k : ℕ) (U : Matrix (Fin n) (Fin m) ℚ) (SP : Fin n → Finset (Fin m))
        (B : Matrix (Fin m) (Fin k) ℚ) (BtBinv : Fin n → Matrix (Fin k) (Fin k) ℚ),
      (∀ i j, j ∉ SP i → U i j = 0) →
      (∀ i, pinvProp (rowGram (SP i) B) (BtBinv i)) →
      Satisfy_Constraints_CSR (Satisfy_Constraints_CSR U SP B BtBinv) SP B BtBinv
        = Satisfy_Constraints_CSR U SP B BtBinv)
    ∧ (∀ (nn r mm c k : ℕ) (U : Matrix (Fin nn × Fin r) (Fin mm × Fin c) ℚ)
        (nodeSupp : Fin nn → Finset (Fin mm)) (B : Matrix (Fin mm × Fin c) (Fin k) ℚ)
        (BtBinv : Fin nn → Matrix (Fin k) (Fin k) ℚ),
      (∀ p q, q ∉ colindicesOf (nodeSupp p.1) → U p q = 0) →
      (∀ i, pinvProp (rowGram (colindicesOf (nodeSupp i)) B) (BtBinv i)) →
      Satisfy_Constraints_BSR (Satisfy_Constraints_BSR U nodeSupp B BtBinv) nodeSupp B BtBinv
        = Satisfy_Constraints_BSR U nodeSupp B BtBinv) := by
  constructor
  · intro n m k U SP B BtBinv hU hX
    exact satisfyCore_idem SP B BtBinv U hU hX
  · intro nn r mm c k U nodeSupp B BtBinv hU hX
    exact satisfyCore_idem _ B _ U hU (fun p => hX p.1)

/-- C3: the local gram inverse builder computes, for every row (CSR) or node
(BSR) with nonempty support, the pseudoinverse of `Bi.T*Bi` from its SVD with
exactly this truncation rule: if the largest singular value is below the
absolute threshold `1e-10` the whole pseudoinverse is zero; otherwise the
singular values whose ratio to the largest is not above `1e-8` are zeroed,
the singular vectors corresponding to zeroed singular values are truncated
away before inversion, and the surviving singular values are inverted.
Rows/nodes with empty support keep the zero matrix.  The hypotheses record
scipy's SVD contract: `Sigma` sorted descending and nonnegative. -/
theorem egm_C3 {ι κ : Type} [Fintype ι] [Fintype κ] [DecidableEq κ] {k : ℕ} [NeZero k]
    (svd : Matrix (Fin k) (Fin k) ℚ →
      Matrix (Fin k) (Fin k) ℚ × (Fin k → ℚ) × Matrix (Fin k) (Fin k) ℚ)
    (supp : ι → Finset κ) (B : Matrix κ (Fin k) ℚ) (i : ι)
    (U : Matrix (Fin k) (Fin k) ℚ) (Sg : Fin k → ℚ) (VT : Matrix (Fin k) (Fin k) ℚ)
    (hsvd : svd (rowGram (supp i) B) = (U, Sg, VT))
    (hsort : ∀ l1 l2 : Fin k, l1 ≤ l2 → Sg l2 ≤ Sg l1)
    (hnn : ∀ l, 0 ≤ Sg l) :
    (supp i = ∅ → build_BtBinv svd supp B i = 0) ∧
    (supp i ≠ ∅ → build_BtBinv svd supp B i = truncatedPinvSpec U Sg VT) := by
  constructor
  · intro h
    simp only [build_BtBinv]
    rw [if_pos h]
  · intro h
    simp only [build_BtBinv]
    rw [if_neg h, hsvd]
    simp only [assembleBtBinv, truncatedPinvSpec]
    by_cases h0 : |Sg 0| < 1e-10
    · rw [if_pos h0, if_pos h0]
    · rw [if_neg h0, if_neg h0]
      have hSg0pos : 0 < Sg 0 := by
        rw [abs_of_nonneg (hnn 0)] at h0
        have h10 : (0 : ℚ) < 1e-10 := by norm_num
        exact lt_of_lt_of_le h10 (not_lt.mp h0)
      have hkeep : ∀ l, filteredSigma Sg l ≠ 0 ↔ 1e-8 < |Sg l / Sg 0| := by
        intro l
        constructor
        · intro hne
          by_contra hc
          exact hne (by rw [filteredSigma, if_neg hc])
        · intro hc
          rw [filteredSigma, if_pos hc]
          intro hzz
          rw [hzz] at hc
          norm_num at hc
      by_cases hlast : filteredSigma Sg (lastIdx k) = 0
      · rw [if_pos hlast]
        ext a b
        simp only [Matrix.of_apply]
        rw [Finset.filter_congr (fun l _ => by
          constructor
          · exact fun hh => (hkeep l).mp hh
          · exact fun hh => (hkeep l).mpr hh)]
        apply Finset.sum_congr rfl
        intro l hl
        have hc := (Finset.mem_filter.mp hl).2
        rw [show filteredSigma Sg l = Sg l from by rw [filteredSigma, if_pos hc]]
      · rw [if_neg hlast]
        have hall : ∀ l, 1e-8 < |Sg l / Sg 0| := by
          intro l
          have hle : (l : Fin k) ≤ lastIdx k := by
            have : l.val < k := l.isLt
            exact Fin.mk_le_mk.mpr (Nat.le_pred_of_lt this)
          have hmono : Sg (lastIdx k) ≤ Sg l := hsort l (lastIdx k) hle
          have hlast2 : 1e-8 < |Sg (lastIdx k) / Sg 0| := (hkeep (lastIdx k)).mp hlast
          rw [abs_of_nonneg (div_nonneg (hnn _) (le_of_lt hSg0pos))] at hlast2 ⊢
          exact lt_of_lt_of_le hlast2 ((div_le_div_iff_of_pos_right hSg0pos).mpr hmono)
        ext a b
        simp only [Matrix.of_apply]
        rw [show Finset.univ.filter (fun l => 1e-8 < |Sg l / Sg 0|) = Finset.univ from
          Finset.filter_true_of_mem (fun l _ => hall l)]
        apply Finset.sum_congr rfl
        intro l _
        rw [show filteredSigma Sg l = Sg l from by rw [filteredSigma, if_pos (hall l)]]

/-- C1: whenever `energy_prolongation_smoother` reaches its minimization loop
(the pattern stores at least one entry, so the empty-residual fallback is not
taken) and the assembled local gram inverses satisfy the exact pseudoinverse
identities, the returned prolongator `P` satisfies `P * B = T * B`: every
iteration of both the SPD (CG) branch and the non-symmetric
(minimum-residual) branch adds to `T` only updates `U` with `U * B = 0`. -/
theorem egm_C1 {n m k : ℕ} [NeZero k]
    (svd : Matrix (Fin k) (Fin k) ℚ →
      Matrix (Fin k) (Fin k) ℚ × (Fin k → ℚ) × Matrix (Fin k) (Fin k) ℚ)
    (fallbackP : Matrix (Fin n) (Fin m) ℚ) (A : SparseM n n) (T : SparseM n m)
    (Atilde : SparseM n n) (B : Matrix (Fin m) (Fin k) ℚ) (SPD : Bool)
    (nii : Bool) (ni : ℤ) (mt : ℚ) (acsr absr tbsr : Bool)
    (hX : ∀ i, pinvProp (rowGram (patternSupp Atilde T i) B)
      (build_BtBinv svd (patternSupp Atilde T) B i))
    (hSP : (∑ i, (patternSupp Atilde T i).card) ≠ 0) :
    ∀ P, energy_prolongation_smoother svd fallbackP A T Atilde B SPD nii ni mt acsr absr tbsr
        = Except.ok P → P * B = T.val * B := by
  intro P hP
  unfold energy_prolongation_smoother at hP
  cases hval : validate nii ni mt acsr absr tbsr with
  | some e =>
    rw [hval] at hP
    exact Except.noConfusion hP
  | none =>
    rw [hval] at hP
    simp only [] at hP
    by_cases hz : T.nnz = 0 ∨ Atilde.nnz = 0 ∨ A.nnz = 0
    · rw [if_pos hz] at hP
      rw [← Except.ok.inj hP]
    · rw [if_neg hz] at hP
      cases hbd : buildD A with
      | error e =>
        rw [hbd] at hP
        exact Except.noConfusion hP
      | ok D =>
        rw [hbd] at hP
        simp only [] at hP
        rw [if_neg hSP] at hP
        have hR0 : Satisfy_Constraints_CSR
            (maskTo (patternSupp Atilde T) (-(A.val * T.val)))
            (patternSupp Atilde T) B
            (build_BtBinv svd (patternSupp Atilde T) B) * B = 0 :=
          satisfyCore_mul_B _ B _ _ (maskTo_supp _ _) hX
        cases SPD with
        | true =>
          rw [if_pos rfl] at hP
          rw [← Except.ok.inj hP]
          exact spdLoop_T_mul_B A.val (patternSupp Atilde T) B
            (build_BtBinv svd (patternSupp Atilde T) B) (fun i => 1 / D i) mt hX
            ni.toNat _ hR0 (fun Pp s h => Option.noConfusion h)
        | false =>
          rw [if_neg (by simp)] at hP
          rw [← Except.ok.inj hP]
          exact mrLoop_T_mul_B A.val (patternSupp Atilde T) B
            (build_BtBinv svd (patternSupp Atilde T) B) mt hX
            ni.toNat _ hR0

/-- C5 (amended): the residual max-norm sequence of the SPD branch need not be
non-increasing, even for a genuinely SPD `A` in exact arithmetic (see the
counterexample); what each CG step does guarantee, entering with the
invariant that the previous search direction is Frobenius-orthogonal to the
current residual (vacuous on the first iteration) and with a nonzero step
denominator `(P.multiply(AP)).sum()`, is exact line search: the updated
residual is Frobenius-orthogonal to the search direction just used,
`(P.multiply(R_new)).sum() = 0`. -/
theorem egm_C5 {n m k : ℕ} (A : Matrix (Fin n) (Fin n) ℚ)
    (SP : Fin n → Finset (Fin m)) (B : Matrix (Fin m) (Fin k) ℚ)
    (X : Fin n → Matrix (Fin k) (Fin k) ℚ) (Dinv : Fin n → ℚ) (st : CGState n m)
    (hprev : ∀ Pp s, st.prev = some (Pp, s) → innerF Pp st.R = 0)
    (hden : innerF (spdDir Dinv st) (spdAP A SP B X Dinv st) ≠ 0) :
    innerF (spdDir Dinv st) ((spdStep A SP B X Dinv st).R) = 0 := by
  have hPR : innerF (spdDir Dinv st) st.R = spdNewsum Dinv st := by
    cases hp : st.prev with
    | none =>
      simp only [spdDir, hp]
      rw [spdNewsum, innerF_comm]
    | some pr =>
      have h0 := hprev pr.1 pr.2 (by rw [hp])
      simp only [spdDir, hp]
      rw [innerF_add_left, innerF_smul_left, h0, mul_zero, add_zero, spdNewsum, innerF_comm]
  show innerF (spdDir Dinv st)
      (st.R - (spdNewsum Dinv st / innerF (spdDir Dinv st) (spdAP A SP B X Dinv st)) •
        spdAP A SP B X Dinv st) = 0
  rw [innerF_sub_right, innerF_smul_right, hPR, div_mul_cancel₀ _ hden, sub_self]

set_option maxRecDepth 1000000 in
/-- C5 (counterexample): a genuinely SPD 2×2 operator (symmetric, positive
leading minors) on which the SPD branch runs and the residual norm
increases: before the first CG step the residual norm is `1`, after it the
recomputed residual norm is `27/14 > 1`, and the run shown is exactly what
`energy_prolongation_smoother` executes with `SPD = true`, `num_iters = 1`,
`min_tol = 0`. -/
theorem egm_C5_counterexample :
    (exA.val).transpose = exA.val ∧
    0 < exA.val 0 0 ∧
    0 < exA.val 0 0 * exA.val 1 1 - exA.val 0 1 * exA.val 1 0 ∧
    energy_prolongation_smoother svd1 0 exA exT exA exB true true 1 0 true false true
      = Except.ok exSt1.T ∧
    residOf exSP exSt0.R = 1 ∧
    residOf exSP exSt1.R = 27/14 ∧
    ¬(residOf exSP exSt1.R ≤ residOf exSP exSt0.R) :=
  ⟨of_decide_eq_true (by with_unfolding_all rfl),
   of_decide_eq_true (by with_unfolding_all rfl),
   of_decide_eq_true (by with_unfolding_all rfl),
   by with_unfolding_all rfl,
   of_decide_eq_true (by with_unfolding_all rfl),
   of_decide_eq_true (by with_unfolding_all rfl),
   of_decide_eq_true (by with_unfolding_all rfl)⟩

set_option maxRecDepth 1000000 in
/-- C5 (witness for the amended theorem): the first CG step of the concrete
run has a nonzero denominator and produces a residual Frobenius-orthogonal
to the search direction. -/
theorem egm_C5_witness :
    (∀ Pp s, exSt0.prev = some (Pp, s) → innerF Pp exSt0.R = 0) ∧
    innerF (spdDir exDinv exSt0) (spdAP exA.val exSP exB exX exDinv exSt0) ≠ 0 ∧
    innerF (spdDir exDinv exSt0) ((spdStep exA.val exSP exB exX exDinv exSt0).R) = 0 :=
  ⟨fun _ _ h => Option.noConfusion h,
   of_decide_eq_true (by with_unfolding_all rfl),
   egm_C5 exA.val exSP exB exX exDinv exSt0 (fun _ _ h => Option.noConfusion h)
     (of_decide_eq_true (by with_unfolding_all rfl))⟩

set_option maxRecDepth 1000000 in
/-- C1 (witness): on the concrete run the gram-inverse hypotheses hold, the
pattern is nonempty, and the returned prolongator preserves the action on
`B`. -/
theorem egm_C1_witness :
    (∀ i, pinvProp (rowGram (patternSupp exA exT i) exB)
        (build_BtBinv svd1 (patternSupp exA exT) exB i)) ∧
    (∑ i, (patternSupp exA exT i).card) ≠ 0 ∧
    exP1 * exB = exT.val * exB :=
  ⟨of_decide_eq_true (by with_unfolding_all rfl),
   of_decide_eq_true (by with_unfolding_all rfl),
   egm_C1 svd1 0 exA exT exA exB true true 1 0 true false true
     (of_decide_eq_true (by with_unfolding_all rfl))
     (of_decide_eq_true (by with_unfolding_all rfl))
     exP1 (by with_unfolding_all rfl)⟩

set_option maxRecDepth 1000000 in
/-- C2 (witness): concrete CSR and BSR instances discharging the hypotheses
and exhibiting the projector contract. -/
theorem egm_C2_witness :
    ((∀ i j, j ∉ exSP2 i → exU2 i j = 0) ∧
      (∀ i, pinvProp (rowGram (exSP2 i) exB2) (exX2 i)) ∧
      (∀ (p : Fin 1 × Fin 1) (q : Fin 1 × Fin 1),
        q ∉ colindicesOf (exNS3 p.1) → exU3 p q = 0) ∧
      (∀ i, pinvProp (rowGram (colindicesOf (exNS3 i) : Finset (Fin 1 × Fin 1)) exB3)
        (exX3 i))) ∧
    (Satisfy_Constraints_CSR exU2 exSP2 exB2 exX2 * exB2 = 0 ∧
      ∀ i j, j ∉ exSP2 i → Satisfy_Constraints_CSR exU2 exSP2 exB2 exX2 i j = 0) ∧
    (Satisfy_Constraints_BSR exU3 exNS3 exB3 exX3 * exB3 = 0 ∧
      ∀ (p : Fin 1 × Fin 1) (q : Fin 1 × Fin 1), q ∉ colindicesOf (exNS3 p.1) →
        Satisfy_Constraints_BSR exU3 exNS3 exB3 exX3 p q = 0) :=
  ⟨⟨of_decide_eq_true (by with_unfolding_all rfl),
    of_decide_eq_true (by with_unfolding_all rfl),
    of_decide_eq_true (by with_unfolding_all rfl),
    of_decide_eq_true (by with_unfolding_all rfl)⟩,
   egm_C2.1 2 1 1 exU2 exSP2 exB2 exX2
     (of_decide_eq_true (by with_unfolding_all rfl))
     (of_decide_eq_true (by with_unfolding_all rfl)),
   egm_C2.2 1 1 1 1 1 exU3 exNS3 exB3 exX3
     (of_decide_eq_true (by with_unfolding_all rfl))
     (of_decide_eq_true (by with_unfolding_all rfl))⟩

set_option maxRecDepth 1000000 in
/-- C4 (witness): the same concrete instances exhibit idempotence of both
projector variants. -/
theorem egm_C4_witness :
    ((∀ i j, j ∉ exSP2 i → exU2 i j = 0) ∧
      (∀ i, pinvProp (rowGram (exSP2 i) exB2) (exX2 i))) ∧
    Satisfy_Constraints_CSR (Satisfy_Constraints_CSR exU2 exSP2 exB2 exX2) exSP2 exB2 exX2
      = Satisfy_Constraints_CSR exU2 exSP2 exB2 exX2 ∧
    Satisfy_Constraints_BSR (Satisfy_Constraints_BSR exU3 exNS3 exB3 exX3) exNS3 exB3 exX3
      = Satisfy_Constraints_BSR exU3 exNS3 exB3 exX3 :=
  ⟨⟨of_decide_eq_true (by with_unfolding_all rfl),
    of_decide_eq_true (by with_unfolding_all rfl)⟩,
   egm_C4.1 2 1 1 exU2 exSP2 exB2 exX2
     (of_decide_eq_true (by with_unfolding_all rfl))
     (of_decide_eq_true (by with_unfolding_all rfl)),
   egm_C4.2 1 1 1 1 1 exU3 exNS3 exB3 exX3
     (of_decide_eq_true (by with_unfolding_all rfl))
     (of_decide_eq_true (by with_unfolding_all rfl))⟩

set_option maxRecDepth 1000000 in
/-- C3 (witness): a concrete 2-dimensional SVD (sorted, nonnegative singular
values 4 and 1) on which the builder agrees with the spec-worded truncation
rule. -/
theorem egm_C3_witness :
    svd2 (rowGram (exSPc3 0) exBc3) = (1, exSg, 1) ∧
    (∀ l1 l2 : Fin 2, l1 ≤ l2 → exSg l2 ≤ exSg l1) ∧
    (∀ l, 0 ≤ exSg l) ∧
    ((exSPc3 0 = ∅ → build_BtBinv svd2 exSPc3 exBc3 0 = 0) ∧
      (exSPc3 0 ≠ ∅ →
        build_BtBinv svd2 exSPc3 exBc3 0 = truncatedPinvSpec 1 exSg 1)) :=
  ⟨rfl,
   of_decide_eq_true (by with_unfolding_all rfl),
   of_decide_eq_true (by with_unfolding_all rfl),
   egm_C3 svd2 exSPc3 exBc3 0 1 exSg 1 rfl
     (of_decide_eq_true (by with_unfolding_all rfl))
     (of_decide_eq_true (by with_unfolding_all rfl))⟩

set_option maxRecDepth 1000000 in
/-- C6 (witness): a structurally nonzero row with a zero diagonal entry makes
the run abort, as the iff states. -/
theorem egm_C6_witness :
    validate true 4 (1/2) true false true = none ∧
    ¬(exT.nnz = 0 ∨ exA.nnz = 0 ∨ exA6.nnz = 0) ∧
    exA6.Consistent ∧
    (((∃ e, energy_prolongation_smoother svd1 0 exA6 exT exA exB true true 4 (1/2)
          true false true = Except.error e)
        ↔ ∃ i, exA6.val i i = 0 ∧ (exA6.supp i).Nonempty) ∧
      (∀ D, buildD exA6 = Except.ok D →
        (∀ i, D i ≠ 0) ∧
          (∀ i j, exA6.supp i = ∅ →
            (Matrix.diagonal (fun i => 1 / D i) * exA6.val) i j = 0))) :=
  ⟨by with_unfolding_all rfl,
   of_decide_eq_true (by with_unfolding_all rfl),
   of_decide_eq_true (by with_unfolding_all rfl),
   egm_C6 svd1 0 exA6 exT exA exB true true 4 (1/2) true false true
     (by with_unfolding_all rfl)
     (of_decide_eq_true (by with_unfolding_all rfl))
     (of_decide_eq_true (by with_unfolding_all rfl))⟩

/-- C7 (witness): a non-integer `num_iters` is rejected by the validation and
surfaces as an error from `energy_prolongation_smoother`. -/
theorem egm_C7_witness :
    validate false 4 (1/2) true false true = some "num_iters must be an integer" ∧
    energy_prolongation_smoother svd1 0 exA exT exA exB true false 4 (1/2) true false true
      = Except.error "num_iters must be an integer" :=
  ⟨rfl,
   egm_C7.2 2 2 1 svd1 0 exA exT exA exB true false 4 (1/2) true false true _ rfl⟩

set_option maxRecDepth 1000000 in
/-- C8 (witness): an operator with no stored entries makes the smoother
return the tentative prolongator unchanged. -/
theorem egm_C8_witness :
    validate true 4 (1/2) true false true = none ∧
    exA8.nnz = 0 ∧
    energy_prolongation_smoother svd1 0 exA8 exT exA exB true true 4 (1/2) true false true
      = Except.ok exT.val :=
  ⟨by with_unfolding_all rfl,
   of_decide_eq_true (by with_unfolding_all rfl),
   egm_C8 svd1 0 exA8 exT exA exB true true 4 (1/2) true false true
     (by with_unfolding_all rfl)
     (Or.inr (Or.inr (of_decide_eq_true (by with_unfolding_all rfl))))⟩
